import Mathlib

/-!
Verification of the rho argument-evaluation core (kmillar/cxxr).

Shallow embedding of:
  - src/include/rho/DiscriminatedUnion.hpp (64-bit tagged word for pointers,
    integers and doubles),
  - src/main/ArgList.cpp and src/include/rho/ArgList.hpp (argument lists,
    variadic expansion, evaluation, merging, promise wrapping),
  - src/main/Promise.cpp and src/main/Argument.cpp (promise memoization,
    re-entrant forcing, promise sharing on copy).

Machine words are modelled as Nat (values below 2 to the 64), doubles by
their IEEE-754 bit patterns, heap pointers by explicit indices, and the
external expression evaluator by an oracle function.  Fatal Rf_error calls
become Except errors; Rf_warning becomes a Boolean flag in the result.
-/

namespace Rho

/-! ## DiscriminatedUnion (src/include/rho/DiscriminatedUnion.hpp) -/

/-- Storage type discriminants, mirroring DiscriminatedUnion::StorageType. -/
inductive StorageType where
  | INTEGER
  | DOUBLE
  | POINTER_1
  | POINTER_1_NULL
  | POINTER_2
  deriving DecidableEq

/-- The 32-entry lookup table s_storage_type from
DiscriminatedUnion::getStorageType, indexed by the top five bits of the
word. -/
def s_storage_type : List StorageType :=
  [.POINTER_1, .POINTER_1, .POINTER_1, .POINTER_1,
   .DOUBLE, .DOUBLE, .DOUBLE, .DOUBLE,
   .DOUBLE, .DOUBLE, .DOUBLE, .DOUBLE,
   .POINTER_2, .POINTER_2, .INTEGER, .DOUBLE,
   .POINTER_1, .POINTER_1, .POINTER_1, .POINTER_1,
   .DOUBLE, .DOUBLE, .DOUBLE, .DOUBLE,
   .DOUBLE, .DOUBLE, .DOUBLE, .DOUBLE,
   .POINTER_2, .POINTER_2, .POINTER_1_NULL, .DOUBLE]

/-- The 64-bit discriminated union: a single machine word (m_value.bits as a
natural number below 2 to the 64). -/
structure DiscriminatedUnion where
  bits : Nat
  deriving DecidableEq

/-- DiscriminatedUnion::getStorageType: an all-zero word is the double 0.0;
otherwise the top five bits index the storage-type table. -/
def DiscriminatedUnion.getStorageType (u : DiscriminatedUnion) : StorageType :=
  if u.bits = 0 then .DOUBLE
  else s_storage_type.getD (u.bits >>> 59) .DOUBLE

/-- DiscriminatedUnion::isDouble. -/
def DiscriminatedUnion.isDouble (u : DiscriminatedUnion) : Bool :=
  u.getStorageType = .DOUBLE

/-- DiscriminatedUnion::setDouble: stores the native IEEE-754 bit pattern of
the double in the word (a union member write; the assert on
isStorableDoubleValue is carried as a theorem hypothesis). -/
def DiscriminatedUnion.setDouble (d : Nat) : DiscriminatedUnion :=
  ⟨d⟩

/-- DiscriminatedUnion::getDouble: reads the word back as a double, bit for
bit (a union member read). -/
def DiscriminatedUnion.getDouble (u : DiscriminatedUnion) : Nat :=
  u.bits

/-- DiscriminatedUnion::isStorableDoubleValue: store the double bits in a
test word and check that the word still classifies as a double. -/
def DiscriminatedUnion.isStorableDoubleValue (d : Nat) : Bool :=
  (DiscriminatedUnion.mk d).isDouble

/-! IEEE-754 double bit patterns used by the testable properties. -/

/-- Bit pattern of positive zero. -/
def posZeroBits : Nat := 0

/-- Bit pattern of positive infinity. -/
def posInfBits : Nat := 0x7FF0000000000000

/-- Bit pattern of negative infinity. -/
def negInfBits : Nat := 0xFFF0000000000000

/-- Bit pattern of the smallest positive normal double, 2 to the minus 1022. -/
def minNormalBits : Nat := 0x0010000000000000

/-- Bit pattern of 2 to the minus 511, the exact square root of the smallest
positive normal double (its exponent minus 1022 is even). -/
def sqrtMinNormalBits : Nat := 0x2000000000000000

/-- Bit pattern of the largest finite double. -/
def maxNormalBits : Nat := 0x7FEFFFFFFFFFFFFF

/-- Negation of a double flips only the sign bit of its pattern. -/
def negateBits (d : Nat) : Nat := d ^^^ (2 ^ 63)

/-- A bit pattern denotes a NaN when the exponent field is all ones and the
mantissa is nonzero; this is the bit-level isnan predicate. -/
def isNaNBits (d : Nat) : Bool :=
  (d >>> 52) % 2048 = 2047 ∧ d % 2 ^ 52 ≠ 0

/-! ## R objects, arguments and argument lists
(src/include/rho/Argument.hpp, src/include/rho/ArgList.hpp,
src/main/ArgList.cpp) -/

/-- R objects, as far as the argument pipeline distinguishes them.  The
symbols missingArg (Symbol::missingArgument), unboundValue
(Symbol::unboundValue) and dots (R_DotsSymbol) are the distinguished
sentinels; sym covers every other Symbol, obj every non-symbol object.
promise is an unforced Promise keyed to an environment, forcedPromise a
pre-forced Promise carrying expression and value (Argument::wrapInPromise
and Argument::wrapInEvaluatedPromise). -/
inductive RObj where
  | null
  | missingArg
  | unboundValue
  | dots
  | sym (name : Nat)
  | obj (id : Nat)
  | promise (valgen : RObj) (envId : Nat)
  | forcedPromise (valgen : RObj) (value : RObj)
  deriving DecidableEq

/-- The SYMSXP test on a non-null object: the three sentinel symbols and sym
are symbols, nothing else is. -/
def RObj.isSymbol : RObj → Bool
  | .missingArg => true
  | .unboundValue => true
  | .dots => true
  | .sym _ => true
  | _ => false

/-- An argument of a call: an optional tag (an interned Symbol, modelled by
its name) and a value (class Argument). -/
structure Argument where
  tag : Option Nat
  value : RObj
  deriving DecidableEq

/-- Argument::setValue keeps the tag and replaces the value, dropping any
promise wrapping. -/
def Argument.setValue (a : Argument) (v : RObj) : Argument :=
  { a with value := v }

/-- ArgList::Status. -/
inductive Status where
  | RAW
  | PROMISED
  | EVALUATED
  deriving DecidableEq

/-- Fatal Rf_error conditions raised by the ArgList operations, plus the two
undefined-behavior outcomes of release builds (a failed assert and an
out-of-bounds Vector index). -/
inductive RhoError where
  | dotsUsedInIncorrectContext
  | argumentIsEmpty (argNumber : Nat)
  | mergeRequiresPromised
  | dispatchError
  | assertionFailed
  | outOfBoundsIndex
  deriving DecidableEq

/-- What the binding of R_DotsSymbol found by Environment::findBinding looks
like: absent entirely, forcing to null, forcing to the missing-argument
sentinel, a DottedArgs list (DOTSXP) of tagged elements, or any other
object. -/
inductive DotsBinding where
  | unbound
  | nullValue
  | missing
  | dottedArgs (elems : List Argument)
  | otherObject (v : RObj)

/-- The slice of an Environment the ArgList operations consult: the binding
of R_DotsSymbol, the isMissingArgument predicate on symbols, the external
expression evaluator (Evaluator::evaluate with this environment), and an
identity used to key promises. -/
structure Env where
  dots : DotsBinding
  isMissing : RObj → Bool
  eval : RObj → RObj
  id : Nat

/-- ArgList context: the argument vector together with its processing
status (class ArgList). -/
structure ArgList where
  args : List Argument
  status : Status
  deriving DecidableEq

/-- ArgList::has3Dots: does any argument have the dots symbol as value. -/
def has3Dots (args : List Argument) : Bool :=
  args.any (fun a => a.value = .dots)

/-- The static helper getDottedArgs of ArgList.cpp: look up R_DotsSymbol in
the environment; no binding at all is the fatal incorrect-context error; a
binding forcing to null or to the missing sentinel yields nothing; a
DOTSXP binding yields its elements; any other binding is the fatal
incorrect-context error. -/
def getDottedArgs (env : Env) : Except RhoError (Option (List Argument)) :=
  match env.dots with
  | .unbound => .error .dotsUsedInIncorrectContext
  | .nullValue => .ok none
  | .missing => .ok none
  | .dottedArgs elems => .ok (some elems)
  | .otherObject _ => .error .dotsUsedInIncorrectContext

/-- MissingArgHandling from ArgList.hpp. -/
inductive MissingArgHandling where
  | Drop
  | Keep
  | Error
  deriving DecidableEq

/-- ArgList::evaluateSingleArgument: the missing-argument sentinel is kept
under Keep and fatal otherwise; a symbol missing in the environment is
turned into the missing sentinel under Keep; everything else goes to the
evaluator. -/
def evaluateSingleArgument (env : Env) (allowMissing : MissingArgHandling)
    (argNumber : Nat) (arg : RObj) : Except RhoError RObj :=
  if arg.isSymbol then
    if arg = .missingArg then
      if allowMissing = .Keep then .ok .missingArg
      else .error (.argumentIsEmpty argNumber)
    else
      if allowMissing = .Keep ∧ env.isMissing arg = true then .ok .missingArg
      else .ok (env.eval arg)
  else .ok (env.eval arg)

/-- The in-place branch of ArgList::transform: apply the per-argument
function to every argument in order, numbering from the given start. -/
def transformEach (f : Argument → Nat → Except RhoError Argument) :
    List Argument → Nat → Except RhoError (List Argument)
  | [], _ => .ok []
  | a :: rest, n =>
    match f a n with
    | .error e => .error e
    | .ok b =>
      match transformEach f rest (n + 1) with
      | .error e => .error e
      | .ok bs => .ok (b :: bs)

/-- The expanding branch of ArgList::transform: an argument whose value is
the dots symbol is replaced by the elements of the DottedArgs binding (or
dropped when that binding is empty), each spliced element and each ordinary
element passing through the per-argument function with a running argument
number. -/
def expandDots (env : Env) (f : Argument → Nat → Except RhoError Argument) :
    List Argument → Nat → Except RhoError (List Argument)
  | [], _ => .ok []
  | a :: rest, n =>
    if a.value = .dots then
      match getDottedArgs env with
      | .error e => .error e
      | .ok none => expandDots env f rest n
      | .ok (some elems) =>
        match transformEach f elems n with
        | .error e => .error e
        | .ok bs =>
          match expandDots env f rest (n + elems.length) with
          | .error e => .error e
          | .ok cs => .ok (bs ++ cs)
    else
      match f a n with
      | .error e => .error e
      | .ok b =>
        match expandDots env f rest (n + 1) with
        | .error e => .error e
        | .ok cs => .ok (b :: cs)

/-- ArgList::transform: work in place unless the list is RAW and contains
an unexpanded dots argument, in which case the dots expansion branch runs. -/
def ArgList.transform (env : Env) (f : Argument → Nat → Except RhoError Argument)
    (l : ArgList) : Except RhoError (List Argument) :=
  if l.status ≠ .RAW ∨ has3Dots l.args = false then
    transformEach f l.args 1
  else
    expandDots env f l.args 1

/-- The per-argument lambda of ArgList::evaluate: replace the argument
value with its evaluation, keeping the tag. -/
def evalArgFun (env : Env) (allowMissing : MissingArgHandling)
    (a : Argument) (n : Nat) : Except RhoError Argument :=
  match evaluateSingleArgument env allowMissing n a.value with
  | .error e => .error e
  | .ok v => .ok (a.setValue v)

/-- ArgList::evaluate: an already EVALUATED list returns immediately with no
change and no error; otherwise every argument value is replaced by its
evaluation and the status becomes EVALUATED. -/
def ArgList.evaluate (env : Env) (allowMissing : MissingArgHandling)
    (l : ArgList) : Except RhoError ArgList :=
  if l.status = .EVALUATED then .ok l
  else
    match l.transform env (evalArgFun env allowMissing) with
    | .error e => .error e
    | .ok args2 => .ok ⟨args2, .EVALUATED⟩

/-- ArgList::merge phase one helper: find the first extra argument carrying
exactly the given tag, returning its value and the remaining extras. -/
def removeFirstMatch (t : Nat) :
    List (Option Nat × RObj) → Option (RObj × List (Option Nat × RObj))
  | [] => none
  | x :: rest =>
    if x.1 = some t then some (x.2, rest)
    else
      match removeFirstMatch t rest with
      | some (v, rest2) => some (v, x :: rest2)
      | none => none

/-- ArgList::merge phase one: walk the existing arguments in order; a tagged
argument whose tag is carried by some extra argument takes that first
matching value (the extra being consumed); the unconsumed extras are
returned alongside. -/
def overrideArgs :
    List Argument → List (Option Nat × RObj) →
    List Argument × List (Option Nat × RObj)
  | [], xs => ([], xs)
  | a :: rest, xs =>
    match a.tag with
    | none =>
      let r := overrideArgs rest xs
      (a :: r.1, r.2)
    | some t =>
      match removeFirstMatch t xs with
      | some (v, xs2) =>
        let r := overrideArgs rest xs2
        (a.setValue v :: r.1, r.2)
      | none =>
        let r := overrideArgs rest xs
        (a :: r.1, r.2)

/-- ArgList::merge: fatal unless the list is PROMISED; overriding extras
replace the values of same-tagged arguments in place and the leftover
extras are appended at the end in their original order. -/
def ArgList.merge (extras : List (Option Nat × RObj)) (l : ArgList) :
    Except RhoError ArgList :=
  if l.status ≠ .PROMISED then .error .mergeRequiresPromised
  else
    let r := overrideArgs l.args extras
    .ok ⟨r.1 ++ r.2.map (fun x => ⟨x.1, x.2⟩), .PROMISED⟩

/-- The per-argument action of the EVALUATED branch of
ArgList::wrapInPromises: with the one-based argument number n, raise the
dispatch error when n minus one exceeds the count of evaluated values,
index the evaluated values at n minus one (an out-of-bounds Vector access,
hence undefined behavior, when the index equals the count), and wrap the
raw call expression in a pre-forced promise of that value
(Argument::wrapInEvaluatedPromise). -/
def wrapEvalFun (values : List Argument) (a : Argument) (n : Nat) :
    Except RhoError Argument :=
  if n - 1 > values.length then .error .dispatchError
  else
    match values.get? (n - 1) with
    | some va => .ok (a.setValue (.forcedPromise a.value va.value))
    | none => .error .outOfBoundsIndex

/-- ArgList::wrapInPromises: a PROMISED list returns immediately; an
EVALUATED list is rebuilt from the raw arguments of the call, each call
argument becoming a pre-forced promise of the positionally corresponding
already-evaluated value; a RAW list wraps every value other than the
missing sentinel in a promise keyed to the environment. -/
def ArgList.wrapInPromises (env : Env) (call : Option (List Argument))
    (l : ArgList) : Except RhoError ArgList :=
  if l.status = .PROMISED then .ok l
  else if l.status = .EVALUATED then
    match call with
    | none => .error .assertionFailed
    | some callArgs =>
      match ArgList.transform env (wrapEvalFun l.args) ⟨callArgs, .RAW⟩ with
      | .error e => .error e
      | .ok args2 => .ok ⟨args2, .PROMISED⟩
  else
    match ArgList.transform env
        (fun a _ =>
          if a.value = .missingArg then .ok a
          else .ok (a.setValue (.promise a.value env.id))) l with
    | .error e => .error e
    | .ok args2 => .ok ⟨args2, .PROMISED⟩

/-! ## Promises (src/main/Promise.cpp)

A PromiseData is either inline promise state or a pointer to a materialized
heap Promise (m_is_pointer_to_promise).  The heap of materialized Promise
objects is a list of PromiseData indexed by position; Promise::m_data is
the stored element.  The expression evaluator (Evaluator::evaluate applied
to the stored expression in the stored environment) is an oracle parameter
that can throw, and every evaluation result carries the number of times
the oracle ran, so that evaluate-exactly-once claims are statable. -/

/-- The fields of class PromiseData.  In the C++ the pointer lives in
m_value; here the heap index is a separate field pointee so that value can
stay an RObj.  Before forcing, value holds the environment; after forcing,
the cached result. -/
structure PromiseData where
  isPointerToPromise : Bool
  pointee : Nat
  underEvaluation : Bool
  interrupted : Bool
  isEvaluated : Bool
  valgen : RObj
  value : RObj
  deriving DecidableEq

/-- The PromiseData constructor from an expression and an environment:
all flags false, m_valgen the expression, m_value the environment. -/
def mkPromiseData (valgen env : RObj) : PromiseData :=
  ⟨false, 0, false, false, false, valgen, env⟩

/-- The PromiseData constructor from a materialized Promise: a pure
pointer; the inline fields are dead (the C++ leaves them uninitialized and
never reads them in pointer mode). -/
def pointerToPromiseData (i : Nat) : PromiseData :=
  ⟨true, i, false, false, false, .null, .null⟩

/-- PromiseData::setEvaluatedValue: storing the unbound-value sentinel is a
no-op; any other value is cached and the evaluated flag set. -/
def PromiseData.setEvaluatedValue (s : PromiseData) (v : RObj) : PromiseData :=
  if v = .unboundValue then s
  else { s with value := v, isEvaluated := true }

/-- Promise::getValue, modelled from the spec: Promise.hpp is not among the
source files; the accessor returns the m_value slot, which after forcing
holds the cached result. -/
def PromiseData.getValue (s : PromiseData) : RObj :=
  s.value

/-- Errors that evaluating a promise can raise: the fatal
already-under-evaluation Rf_error, or an exception propagating out of the
evaluation of the stored expression. -/
inductive PromiseEvalError where
  | alreadyUnderEvaluation
  | exprException
  deriving DecidableEq

deriving instance DecidableEq for Except

/-- The outcome of one call to PromiseData::evaluate: the returned value or
error, whether the restarting-interrupted-promise warning was emitted, the
promise state afterwards, and how many times the stored expression was
evaluated during the call. -/
structure PromiseEvalResult where
  result : Except PromiseEvalError RObj
  warned : Bool
  state : PromiseData
  evalCount : Nat
  deriving DecidableEq

/-- The forcing section of PromiseData::evaluate (the region from setting
m_under_evaluation through the try block): evaluate the stored expression
in the stored environment; on success store the result, clear
m_under_evaluation and return the value; on an exception set m_interrupted
and propagate (m_under_evaluation stays set). -/
def forcePromise (runExpr : RObj → RObj → Except Unit RObj)
    (s : PromiseData) (warned : Bool) : PromiseEvalResult :=
  match runExpr s.valgen s.value with
  | .ok v =>
    ⟨.ok ({ s.setEvaluatedValue v with underEvaluation := false }).getValue,
     warned, { s.setEvaluatedValue v with underEvaluation := false }, 1⟩
  | .error _ =>
    ⟨.error .exprException, warned,
     { s with underEvaluation := true, interrupted := true }, 1⟩

/-- PromiseData::evaluate for inline (non-pointer) promise data: if the
promise is unforced, or its stored value is the unbound sentinel, force it,
warning and retrying when interrupted, raising the fatal error when already
under evaluation; otherwise return the cached value unchanged. -/
def PromiseData.evaluate (runExpr : RObj → RObj → Except Unit RObj)
    (s : PromiseData) : PromiseEvalResult :=
  if ¬ s.isEvaluated ∨ s.value = .unboundValue then
    if s.interrupted then
      forcePromise runExpr { s with interrupted := false } true
    else if s.underEvaluation then
      ⟨.error .alreadyUnderEvaluation, false, s, 0⟩
    else
      forcePromise runExpr s false
  else
    ⟨.ok s.getValue, false, s, 0⟩

/-- PromiseData::evaluate including the pointer case: a pointer delegates
to the materialized Promise on the heap and the updated promise state is
written back to the heap cell. -/
def PromiseData.evaluateWithHeap (runExpr : RObj → RObj → Except Unit RObj)
    (s : PromiseData) (heap : List PromiseData) :
    PromiseEvalResult × List PromiseData :=
  if s.isPointerToPromise then
    let p := heap.getD s.pointee (mkPromiseData .null .null)
    let r := p.evaluate runExpr
    (⟨r.result, r.warned, s, r.evalCount⟩, heap.set s.pointee r.state)
  else
    (s.evaluate runExpr, heap)

/-- PromiseData::asPromise: a pointer already names its Promise; otherwise
the inline state moves into a fresh heap Promise and this PromiseData
becomes a pointer to it.  Returns the heap index, the new state of this
PromiseData, and the new heap. -/
def PromiseData.asPromise (s : PromiseData) (heap : List PromiseData) :
    Nat × PromiseData × List PromiseData :=
  if s.isPointerToPromise then (s.pointee, s, heap)
  else (heap.length, pointerToPromiseData heap.length, heap ++ [s])

/-- The PromiseData copy constructor: the copy is a pointer to the Promise
that asPromise materializes, and the source itself has become a pointer to
that same Promise.  Returns the copy, the mutated source, and the heap. -/
def PromiseData.copy (s : PromiseData) (heap : List PromiseData) :
    PromiseData × PromiseData × List PromiseData :=
  let r := s.asPromise heap
  (pointerToPromiseData r.1, r.2.1, r.2.2)

/-! ## Specification-side helper functions

These restate, directly from the wording of the specification, what single
arguments and merge results should look like; the theorems below compare
the source-derived operations against them. -/

/-- What evaluating one argument value yields under the Keep missing-policy
(where no error is possible): the missing sentinel stays, a symbol missing
in the environment becomes the missing sentinel, everything else goes to
the evaluator. -/
def keepEval (env : Env) (arg : RObj) : RObj :=
  if arg.isSymbol then
    if arg = .missingArg then .missingArg
    else if env.isMissing arg = true then .missingArg
    else env.eval arg
  else env.eval arg

/-- The value the first extra argument carrying the given tag supplies, if
any (an untagged argument slot matches no extra). -/
def findExtraValue (t : Option Nat) (extras : List (Option Nat × RObj)) :
    Option RObj :=
  match t with
  | none => none
  | some t => (extras.find? (fun x => decide (x.1 = some t))).map Prod.snd

/-- Whether an extra argument overrides some existing argument: it carries a
tag and some existing argument carries the same tag. -/
def tagMatchedBy (args : List Argument) (x : Option Nat × RObj) : Bool :=
  match x.1 with
  | none => false
  | some t => args.any (fun a => decide (a.tag = some t))

/-! ## Concrete environments for counterexamples and witnesses -/

/-- An environment in which R_DotsSymbol has no binding at all; symbols are
never missing and evaluation is the identity. -/
def envNoDotsBinding : Env :=
  { dots := .unbound, isMissing := fun _ => false, eval := fun v => v, id := 0 }

/-- An environment in which R_DotsSymbol is bound to the missing-argument
sentinel; symbols are never missing and evaluation is the identity. -/
def envEmptyDots : Env :=
  { dots := .missing, isMissing := fun _ => false, eval := fun v => v, id := 0 }

/-! ## Theorems -/

/-- Claim C2: for every double whose bit pattern isStorableDoubleValue
accepts, storing it with setDouble and reading it back with getDouble is
bit-exact, the stored word classifies as the Double variant, a NaN pattern
reads back as a NaN pattern, and the patterns of positive zero, negative
infinity and positive infinity are all storable. -/
theorem double_roundtrip_bitexact (d : Nat) (hd : d < 2 ^ 64)
    (hs : DiscriminatedUnion.isStorableDoubleValue d = true) :
    (DiscriminatedUnion.setDouble d).getDouble = d
    ∧ (DiscriminatedUnion.setDouble d).getStorageType = StorageType.DOUBLE
    ∧ (isNaNBits d = true →
        isNaNBits ((DiscriminatedUnion.setDouble d).getDouble) = true)
    ∧ DiscriminatedUnion.isStorableDoubleValue posZeroBits = true
    ∧ DiscriminatedUnion.isStorableDoubleValue negInfBits = true
    ∧ DiscriminatedUnion.isStorableDoubleValue posInfBits = true := by
  refine ⟨rfl, ?_, fun h => h, by decide, by decide, by decide⟩
  have h2 : (DiscriminatedUnion.mk d).isDouble = true := hs
  unfold DiscriminatedUnion.isDouble at h2
  exact of_decide_eq_true h2

/-- Witness for claim C2 at the quiet NaN pattern 0x7FF8000000000000. -/
theorem double_roundtrip_bitexact_witness :
    DiscriminatedUnion.isStorableDoubleValue 0x7FF8000000000000 = true
    ∧ ((DiscriminatedUnion.setDouble 0x7FF8000000000000).getDouble
          = 0x7FF8000000000000
        ∧ (DiscriminatedUnion.setDouble 0x7FF8000000000000).getStorageType
            = StorageType.DOUBLE
        ∧ (isNaNBits 0x7FF8000000000000 = true →
            isNaNBits ((DiscriminatedUnion.setDouble 0x7FF8000000000000).getDouble)
              = true)
        ∧ DiscriminatedUnion.isStorableDoubleValue posZeroBits = true
        ∧ DiscriminatedUnion.isStorableDoubleValue negInfBits = true
        ∧ DiscriminatedUnion.isStorableDoubleValue posInfBits = true) :=
  ⟨by decide, double_roundtrip_bitexact 0x7FF8000000000000 (by decide) (by decide)⟩

/-- Claim C9: isStorableDoubleValue rejects the smallest positive normal
double and its negation, whose bit patterns fall in the pointer encoding
band, and accepts the square root of the smallest normal, the largest
normal, and the negations of both. -/
theorem isStorable_boundary_values :
    DiscriminatedUnion.isStorableDoubleValue minNormalBits = false
    ∧ DiscriminatedUnion.isStorableDoubleValue (negateBits minNormalBits) = false
    ∧ DiscriminatedUnion.isStorableDoubleValue sqrtMinNormalBits = true
    ∧ DiscriminatedUnion.isStorableDoubleValue (negateBits sqrtMinNormalBits) = true
    ∧ DiscriminatedUnion.isStorableDoubleValue maxNormalBits = true
    ∧ DiscriminatedUnion.isStorableDoubleValue (negateBits maxNormalBits) = true := by
  decide

/-- Claim C1 counterexample: calling evaluate on an ArgList whose Status is
already EVALUATED is not rejected: it succeeds silently and leaves the list
unchanged, contradicting the claim that a second evaluate call is a fatal
programming error. -/
theorem evaluate_already_evaluated_counterexample :
    ArgList.evaluate envNoDotsBinding .Keep ⟨[⟨some 5, .obj 7⟩], .EVALUATED⟩
      = .ok ⟨[⟨some 5, .obj 7⟩], .EVALUATED⟩ := by
  decide

/-- Claim C1 (amended): calling evaluate on an ArgList with Status EVALUATED
is a silent no-op: it returns immediately, leaving the list unchanged and
raising no error, for every environment and missing-argument policy. -/
theorem evaluate_already_evaluated_silent_noop (env : Env)
    (allowMissing : MissingArgHandling) (l : ArgList)
    (h : l.status = .EVALUATED) :
    l.evaluate env allowMissing = .ok l := by
  simp [ArgList.evaluate, h]

/-- Witness for the amended claim C1 at a one-element evaluated list. -/
theorem evaluate_already_evaluated_silent_noop_witness :
    ArgList.evaluate envNoDotsBinding .Keep ⟨[⟨some 1, .obj 1⟩], .EVALUATED⟩
      = .ok ⟨[⟨some 1, .obj 1⟩], .EVALUATED⟩ :=
  evaluate_already_evaluated_silent_noop envNoDotsBinding .Keep
    ⟨[⟨some 1, .obj 1⟩], .EVALUATED⟩ rfl

/-- Forcing always runs the stored expression exactly once, whether it
succeeds or throws. -/
theorem forcePromise_evalCount (runExpr : RObj → RObj → Except Unit RObj)
    (s : PromiseData) (warned : Bool) :
    (forcePromise runExpr s warned).evalCount = 1 := by
  unfold forcePromise
  cases h : runExpr s.valgen s.value <;> simp [h]

/-- Forcing reports exactly the warning flag it was given. -/
theorem forcePromise_warned (runExpr : RObj → RObj → Except Unit RObj)
    (s : PromiseData) (warned : Bool) :
    (forcePromise runExpr s warned).warned = warned := by
  unfold forcePromise
  cases h : runExpr s.valgen s.value <;> simp [h]

/-- Claim C4: a Promise that is already Forced (evaluated flag set and a
genuine cached value) returns the cached value with no state change and no
expression evaluation; and starting from a fresh promise, the first
evaluate call runs the expression exactly once and the second call runs it
zero times, both returning the same value and the second leaving the state
fixed. -/
theorem promise_forced_returns_cached_once
    (runExpr : RObj → RObj → Except Unit RObj) (s : PromiseData)
    (valgen env v : RObj)
    (hforced : s.isEvaluated = true) (hval : s.value ≠ .unboundValue)
    (hrun : runExpr valgen env = .ok v) (hv : v ≠ .unboundValue) :
    s.evaluate runExpr = ⟨.ok s.getValue, false, s, 0⟩
    ∧ ((mkPromiseData valgen env).evaluate runExpr).result = .ok v
    ∧ ((mkPromiseData valgen env).evaluate runExpr).evalCount = 1
    ∧ (((mkPromiseData valgen env).evaluate runExpr).state.evaluate runExpr).result
        = .ok v
    ∧ (((mkPromiseData valgen env).evaluate runExpr).state.evaluate runExpr).evalCount
        = 0
    ∧ (((mkPromiseData valgen env).evaluate runExpr).state.evaluate runExpr).state
        = ((mkPromiseData valgen env).evaluate runExpr).state := by
  have hcached : s.evaluate runExpr = ⟨.ok s.getValue, false, s, 0⟩ := by
    unfold PromiseData.evaluate
    simp [hforced, hval]
  have hfresh : (mkPromiseData valgen env).evaluate runExpr
      = ⟨.ok v, false, ⟨false, 0, false, false, true, valgen, v⟩, 1⟩ := by
    unfold PromiseData.evaluate forcePromise
    simp [mkPromiseData, hrun, PromiseData.setEvaluatedValue, hv,
          PromiseData.getValue]
  have hsecond : (⟨false, 0, false, false, true, valgen, v⟩ : PromiseData).evaluate
        runExpr
      = ⟨.ok v, false, ⟨false, 0, false, false, true, valgen, v⟩, 0⟩ := by
    unfold PromiseData.evaluate
    simp [hv, PromiseData.getValue]
  refine ⟨hcached, ?_, ?_, ?_, ?_, ?_⟩ <;> simp [hfresh, hsecond]

/-- Witness for claim C4 at a concrete forced promise and a concrete
expression oracle. -/
theorem promise_forced_returns_cached_once_witness :
    (PromiseData.mk false 0 false false true (.sym 1) (.obj 2)).evaluate
        (fun _ _ => .ok (.obj 9))
      = ⟨.ok (PromiseData.mk false 0 false false true (.sym 1) (.obj 2)).getValue,
         false, PromiseData.mk false 0 false false true (.sym 1) (.obj 2), 0⟩
    ∧ ((mkPromiseData (.sym 1) (.obj 0)).evaluate (fun _ _ => .ok (.obj 9))).result
        = .ok (.obj 9)
    ∧ ((mkPromiseData (.sym 1) (.obj 0)).evaluate (fun _ _ => .ok (.obj 9))).evalCount
        = 1
    ∧ (((mkPromiseData (.sym 1) (.obj 0)).evaluate
          (fun _ _ => .ok (.obj 9))).state.evaluate (fun _ _ => .ok (.obj 9))).result
        = .ok (.obj 9)
    ∧ (((mkPromiseData (.sym 1) (.obj 0)).evaluate
          (fun _ _ => .ok (.obj 9))).state.evaluate (fun _ _ => .ok (.obj 9))).evalCount
        = 0
    ∧ (((mkPromiseData (.sym 1) (.obj 0)).evaluate
          (fun _ _ => .ok (.obj 9))).state.evaluate (fun _ _ => .ok (.obj 9))).state
        = ((mkPromiseData (.sym 1) (.obj 0)).evaluate (fun _ _ => .ok (.obj 9))).state :=
  promise_forced_returns_cached_once (fun _ _ => .ok (.obj 9))
    (PromiseData.mk false 0 false false true (.sym 1) (.obj 2))
    (.sym 1) (.obj 0) (.obj 9) rfl (by decide) rfl (by decide)

/-- Claim C5: forcing a promise that is UnderEvaluation and not Interrupted
raises the fatal already-under-evaluation error without evaluating
anything; forcing a promise in the Interrupted state emits the restart
warning, clears the interrupted flag, and retries the evaluation (running
the expression exactly once). -/
theorem promise_reentrant_and_interrupted
    (runExpr : RObj → RObj → Except Unit RObj) (s : PromiseData)
    (hunforced : s.isEvaluated = false) :
    (s.underEvaluation = true → s.interrupted = false →
      s.evaluate runExpr = ⟨.error .alreadyUnderEvaluation, false, s, 0⟩)
    ∧ (s.interrupted = true →
      s.evaluate runExpr
          = forcePromise runExpr { s with interrupted := false } true
        ∧ (s.evaluate runExpr).warned = true
        ∧ (s.evaluate runExpr).evalCount = 1) := by
  constructor
  · intro hu hi
    unfold PromiseData.evaluate
    simp [hunforced, hu, hi]
  · intro hi
    have h : s.evaluate runExpr
        = forcePromise runExpr { s with interrupted := false } true := by
      unfold PromiseData.evaluate
      simp [hunforced, hi]
    exact ⟨h, by rw [h]; exact forcePromise_warned _ _ _,
           by rw [h]; exact forcePromise_evalCount _ _ _⟩

/-- Witness for claim C5 at a concrete under-evaluation promise and a
concrete interrupted promise. -/
theorem promise_reentrant_and_interrupted_witness :
    ((PromiseData.mk false 0 true false false (.sym 1) (.obj 2)).evaluate
        (fun _ _ => .ok (.obj 9))
      = ⟨.error .alreadyUnderEvaluation, false,
         PromiseData.mk false 0 true false false (.sym 1) (.obj 2), 0⟩)
    ∧ ((PromiseData.mk false 0 true true false (.sym 1) (.obj 2)).evaluate
        (fun _ _ => .ok (.obj 9))).warned = true
    ∧ ((PromiseData.mk false 0 true true false (.sym 1) (.obj 2)).evaluate
        (fun _ _ => .ok (.obj 9))).evalCount = 1
    ∧ ((PromiseData.mk false 0 true true false (.sym 1) (.obj 2)).evaluate
        (fun _ _ => .ok (.obj 9))).state.interrupted = false :=
  ⟨(promise_reentrant_and_interrupted (fun _ _ => .ok (.obj 9))
      (PromiseData.mk false 0 true false false (.sym 1) (.obj 2)) rfl).1 rfl rfl,
   ((promise_reentrant_and_interrupted (fun _ _ => .ok (.obj 9))
      (PromiseData.mk false 0 true true false (.sym 1) (.obj 2)) rfl).2 rfl).2.1,
   ((promise_reentrant_and_interrupted (fun _ _ => .ok (.obj 9))
      (PromiseData.mk false 0 true true false (.sym 1) (.obj 2)) rfl).2 rfl).2.2,
   by rw [((promise_reentrant_and_interrupted (fun _ _ => .ok (.obj 9))
      (PromiseData.mk false 0 true true false (.sym 1) (.obj 2)) rfl).2 rfl).1]
      decide⟩

/-- Claim C10: storing the unbound-value sentinel with setEvaluatedValue
leaves the promise state bit-for-bit unchanged, and a quiescent promise
whose stored value is the unbound sentinel is forced again by evaluate,
running the stored expression exactly once, even when the evaluated flag is
already set. -/
theorem setEvaluatedValue_unbound_noop_and_reforce
    (runExpr : RObj → RObj → Except Unit RObj) (s : PromiseData)
    (hval : s.value = .unboundValue)
    (hu : s.underEvaluation = false) (hi : s.interrupted = false) :
    s.setEvaluatedValue .unboundValue = s
    ∧ s.evaluate runExpr = forcePromise runExpr s false
    ∧ (s.evaluate runExpr).evalCount = 1 := by
  have h : s.evaluate runExpr = forcePromise runExpr s false := by
    unfold PromiseData.evaluate
    simp [hval, hu, hi]
  exact ⟨by simp [PromiseData.setEvaluatedValue], h,
         by rw [h]; exact forcePromise_evalCount _ _ _⟩

/-- Witness for claim C10 at a promise whose evaluated flag is set but whose
value slot holds the unbound sentinel. -/
theorem setEvaluatedValue_unbound_noop_and_reforce_witness :
    (PromiseData.mk false 0 false false true (.sym 1) .unboundValue).setEvaluatedValue
        .unboundValue
      = PromiseData.mk false 0 false false true (.sym 1) .unboundValue
    ∧ (PromiseData.mk false 0 false false true (.sym 1) .unboundValue).evaluate
        (fun _ _ => .ok (.obj 9))
      = forcePromise (fun _ _ => .ok (.obj 9))
          (PromiseData.mk false 0 false false true (.sym 1) .unboundValue) false
    ∧ ((PromiseData.mk false 0 false false true (.sym 1) .unboundValue).evaluate
        (fun _ _ => .ok (.obj 9))).evalCount = 1 :=
  setEvaluatedValue_unbound_noop_and_reforce (fun _ _ => .ok (.obj 9))
    (PromiseData.mk false 0 false false true (.sym 1) .unboundValue) rfl rfl rfl

/-- Reading the freshly appended last element of a heap. -/
theorem getD_append_length {α : Type} (l : List α) (a d : α) :
    (l ++ [a]).getD l.length d = a := by
  induction l with
  | nil => rfl
  | cons x t ih => simp [List.getD]

/-- Reading back a heap cell that was just overwritten. -/
theorem getD_set_length {α : Type} (l : List α) (a b d : α) :
    ((l ++ [a]).set l.length b).getD l.length d = b := by
  induction l with
  | nil => rfl
  | cons x t ih => simp [List.getD]

/-- Claim C8: copying a fresh Promise-bearing PromiseData turns both the
source and the copy into pointers to one and the same materialized heap
Promise; forcing through that shared reference evaluates the stored
expression exactly once and yields the value, and forcing again through
the same reference (hence from the other of the two copies, in either
order) evaluates nothing further, returns the same cached value, and
leaves the heap fixed. -/
theorem promise_copy_shares_evaluation
    (runExpr : RObj → RObj → Except Unit RObj)
    (valgen env v : RObj) (heap : List PromiseData)
    (hrun : runExpr valgen env = .ok v) (hv : v ≠ .unboundValue) :
    (mkPromiseData valgen env).copy heap
      = (pointerToPromiseData heap.length, pointerToPromiseData heap.length,
         heap ++ [mkPromiseData valgen env])
    ∧ ((pointerToPromiseData heap.length).evaluateWithHeap runExpr
         (heap ++ [mkPromiseData valgen env])).1.result = .ok v
    ∧ ((pointerToPromiseData heap.length).evaluateWithHeap runExpr
         (heap ++ [mkPromiseData valgen env])).1.evalCount = 1
    ∧ ((pointerToPromiseData heap.length).evaluateWithHeap runExpr
         ((pointerToPromiseData heap.length).evaluateWithHeap runExpr
           (heap ++ [mkPromiseData valgen env])).2).1.result = .ok v
    ∧ ((pointerToPromiseData heap.length).evaluateWithHeap runExpr
         ((pointerToPromiseData heap.length).evaluateWithHeap runExpr
           (heap ++ [mkPromiseData valgen env])).2).1.evalCount = 0
    ∧ ((pointerToPromiseData heap.length).evaluateWithHeap runExpr
         ((pointerToPromiseData heap.length).evaluateWithHeap runExpr
           (heap ++ [mkPromiseData valgen env])).2).2
        = ((pointerToPromiseData heap.length).evaluateWithHeap runExpr
            (heap ++ [mkPromiseData valgen env])).2 := by
  have hcopy : (mkPromiseData valgen env).copy heap
      = (pointerToPromiseData heap.length, pointerToPromiseData heap.length,
         heap ++ [mkPromiseData valgen env]) := by
    simp [PromiseData.copy, PromiseData.asPromise, mkPromiseData]
  have hfresh : (mkPromiseData valgen env).evaluate runExpr
      = ⟨.ok v, false, ⟨false, 0, false, false, true, valgen, v⟩, 1⟩ := by
    unfold PromiseData.evaluate forcePromise
    simp [mkPromiseData, hrun, PromiseData.setEvaluatedValue, hv,
          PromiseData.getValue]
  have hsecond : (⟨false, 0, false, false, true, valgen, v⟩ : PromiseData).evaluate
        runExpr
      = ⟨.ok v, false, ⟨false, 0, false, false, true, valgen, v⟩, 0⟩ := by
    unfold PromiseData.evaluate
    simp [hv, PromiseData.getValue]
  have hstep1 : (pointerToPromiseData heap.length).evaluateWithHeap runExpr
        (heap ++ [mkPromiseData valgen env])
      = (⟨.ok v, false, pointerToPromiseData heap.length, 1⟩,
         (heap ++ [mkPromiseData valgen env]).set heap.length
           ⟨false, 0, false, false, true, valgen, v⟩) := by
    unfold PromiseData.evaluateWithHeap
    simp [pointerToPromiseData, getD_append_length, hfresh]
  have hstep2 : (pointerToPromiseData heap.length).evaluateWithHeap runExpr
        ((heap ++ [mkPromiseData valgen env]).set heap.length
          ⟨false, 0, false, false, true, valgen, v⟩)
      = (⟨.ok v, false, pointerToPromiseData heap.length, 0⟩,
         (heap ++ [mkPromiseData valgen env]).set heap.length
           ⟨false, 0, false, false, true, valgen, v⟩) := by
    unfold PromiseData.evaluateWithHeap
    simp [pointerToPromiseData, getD_set_length, hsecond, List.set_set]
  exact ⟨hcopy, by simp only [hstep1], by simp only [hstep1],
         by simp only [hstep1, hstep2], by simp only [hstep1, hstep2],
         by simp only [hstep1, hstep2]⟩

/-- Witness for claim C8 at a concrete fresh promise copied over the empty
heap. -/
theorem promise_copy_shares_evaluation_witness :
    (mkPromiseData (.sym 1) (.obj 0)).copy []
      = (pointerToPromiseData 0, pointerToPromiseData 0,
         [mkPromiseData (.sym 1) (.obj 0)])
    ∧ ((pointerToPromiseData 0).evaluateWithHeap (fun _ _ => .ok (.obj 9))
         [mkPromiseData (.sym 1) (.obj 0)]).1.result = .ok (.obj 9)
    ∧ ((pointerToPromiseData 0).evaluateWithHeap (fun _ _ => .ok (.obj 9))
         [mkPromiseData (.sym 1) (.obj 0)]).1.evalCount = 1
    ∧ ((pointerToPromiseData 0).evaluateWithHeap (fun _ _ => .ok (.obj 9))
         ((pointerToPromiseData 0).evaluateWithHeap (fun _ _ => .ok (.obj 9))
           [mkPromiseData (.sym 1) (.obj 0)]).2).1.result = .ok (.obj 9)
    ∧ ((pointerToPromiseData 0).evaluateWithHeap (fun _ _ => .ok (.obj 9))
         ((pointerToPromiseData 0).evaluateWithHeap (fun _ _ => .ok (.obj 9))
           [mkPromiseData (.sym 1) (.obj 0)]).2).1.evalCount = 0
    ∧ ((pointerToPromiseData 0).evaluateWithHeap (fun _ _ => .ok (.obj 9))
         ((pointerToPromiseData 0).evaluateWithHeap (fun _ _ => .ok (.obj 9))
           [mkPromiseData (.sym 1) (.obj 0)]).2).2
        = ((pointerToPromiseData 0).evaluateWithHeap (fun _ _ => .ok (.obj 9))
            [mkPromiseData (.sym 1) (.obj 0)]).2 := by
  have h := promise_copy_shares_evaluation (fun _ _ => .ok (.obj 9))
    (.sym 1) (.obj 0) (.obj 9) [] rfl (by decide)
  simpa using h

/-- Under the Keep missing-policy, evaluating a single argument never fails
and yields exactly the specification-side keepEval value. -/
theorem evaluateSingleArgument_keep (env : Env) (n : Nat) (arg : RObj) :
    evaluateSingleArgument env .Keep n arg = .ok (keepEval env arg) := by
  unfold evaluateSingleArgument keepEval
  by_cases h1 : arg.isSymbol
  · by_cases h2 : arg = .missingArg
    · subst h2; simp [RObj.isSymbol]
    · by_cases h3 : env.isMissing arg = true <;> simp [h1, h2, h3]
  · simp [h1]

/-- The in-place transform of a list by a never-failing per-argument
function is a plain map. -/
theorem transformEach_ok (g : Argument → Argument)
    (f : Argument → Nat → Except RhoError Argument)
    (hf : ∀ a n, f a n = .ok (g a)) :
    ∀ (args : List Argument) (n : Nat), transformEach f args n = .ok (args.map g) := by
  intro args
  induction args with
  | nil => intro n; rfl
  | cons a rest ih => intro n; simp [transformEach, hf, ih]

/-- With an empty (null or missing) dots binding and a never-failing
per-argument function, the expanding transform keeps every non-dots
argument, mapped, in order, and drops every dots argument. -/
theorem expandDots_empty (env : Env) (g : Argument → Argument)
    (f : Argument → Nat → Except RhoError Argument)
    (hd : getDottedArgs env = .ok none)
    (hf : ∀ a n, f a n = .ok (g a)) :
    ∀ (args : List Argument) (n : Nat),
      expandDots env f args n
        = .ok (args.filterMap fun a =>
            if a.value = .dots then none else some (g a)) := by
  intro args
  induction args with
  | nil => intro n; rfl
  | cons a rest ih =>
    intro n
    by_cases hv : a.value = .dots
    · simp [expandDots, hv, hd, ih]
    · simp [expandDots, hv, hf, ih]

/-- With a failing dots lookup and a never-failing per-argument function,
the expanding transform fails with that error as soon as the list contains
a dots argument. -/
theorem expandDots_error (env : Env) (g : Argument → Argument)
    (f : Argument → Nat → Except RhoError Argument) (e : RhoError)
    (hd : getDottedArgs env = .error e)
    (hf : ∀ a n, f a n = .ok (g a)) :
    ∀ (args : List Argument) (n : Nat), (∃ a ∈ args, a.value = .dots) →
      expandDots env f args n = .error e := by
  intro args
  induction args with
  | nil => intro n h; exact absurd h (by simp)
  | cons a rest ih =>
    intro n h
    by_cases hv : a.value = .dots
    · simp [expandDots, hv, hd]
    · obtain ⟨b, hb, hbv⟩ := h
      rcases List.mem_cons.mp hb with rfl | hb2
      · exact absurd hbv hv
      · simp [expandDots, hv, hf, ih (n + 1) ⟨b, hb2, hbv⟩]

/-- Filtering out dots arguments from a list that has none is a plain map. -/
theorem filterMap_no_dots (g : Argument → Argument) (args : List Argument)
    (h : ∀ a ∈ args, a.value ≠ .dots) :
    (args.filterMap fun a => if a.value = .dots then none else some (g a))
      = args.map g := by
  induction args with
  | nil => rfl
  | cons a rest ih =>
    have ha : a.value ≠ .dots := h a (List.mem_cons_self a rest)
    simp [ha, ih fun b hb => h b (List.mem_cons_of_mem a hb)]

/-- Claim C6 (amended): during evaluation of a Raw ArgumentList under the
Keep missing-policy, a dots argument whose binding resolves to null or to
the missing sentinel is removed entirely while every other argument keeps
its position and tag and is evaluated; but a dots argument with no binding
at all in the environment, like one bound to any non-rest-args object, is
the fatal used-in-an-incorrect-context error rather than removal. -/
theorem dots_empty_binding_removes_argument (env : Env) (args : List Argument) :
    ((env.dots = DotsBinding.nullValue ∨ env.dots = DotsBinding.missing) →
      ArgList.evaluate env .Keep ⟨args, .RAW⟩
        = .ok ⟨args.filterMap fun a =>
            if a.value = .dots then none
            else some (a.setValue (keepEval env a.value)), .EVALUATED⟩)
    ∧ ((env.dots = DotsBinding.unbound ∨ ∃ v, env.dots = DotsBinding.otherObject v) →
      (∃ a ∈ args, a.value = .dots) →
      ArgList.evaluate env .Keep ⟨args, .RAW⟩ = .error .dotsUsedInIncorrectContext) := by
  have hf : ∀ (a : Argument) (n : Nat),
      evalArgFun env .Keep a n = .ok (a.setValue (keepEval env a.value)) := by
    intro a n
    simp [evalArgFun, evaluateSingleArgument_keep]
  constructor
  · intro hempty
    have hd : getDottedArgs env = .ok none := by
      rcases hempty with h | h <;> simp [getDottedArgs, h]
    unfold ArgList.evaluate ArgList.transform
    by_cases h3 : has3Dots args = true
    · simp only [h3]
      simp [expandDots_empty env _ _ hd hf args 1]
    · have hnone : ∀ a ∈ args, a.value ≠ .dots := by
        intro a ha hav
        exact h3 (by simp [has3Dots, List.any_eq_true]; exact ⟨a, ha, hav⟩)
      simp only [eq_self_iff_true]
      simp [h3, transformEach_ok _ _ hf args 1, filterMap_no_dots _ _ hnone]
  · intro hbad hdots
    have hd : getDottedArgs env = .error .dotsUsedInIncorrectContext := by
      rcases hbad with h | ⟨v, h⟩ <;> simp [getDottedArgs, h]
    have h3 : has3Dots args = true := by
      obtain ⟨a, ha, hav⟩ := hdots
      simp [has3Dots, List.any_eq_true]
      exact ⟨a, ha, hav⟩
    unfold ArgList.evaluate ArgList.transform
    simp [h3, expandDots_error env _ _ _ hd hf args 1 hdots]

/-- Claim C6 counterexample: with no binding at all for the dots symbol,
evaluating a Raw list containing the dots placeholder raises the fatal
incorrect-context error; the element is not removed as the claim states. -/
theorem dots_unbound_counterexample :
    ArgList.evaluate envNoDotsBinding .Keep ⟨[⟨none, .dots⟩], .RAW⟩
      = .error .dotsUsedInIncorrectContext
    ∧ ArgList.evaluate envNoDotsBinding .Keep ⟨[⟨none, .dots⟩], .RAW⟩
      ≠ .ok ⟨[], .EVALUATED⟩ := by
  exact ⟨by decide, by decide⟩

/-- Witness for the amended claim C6: a dots argument bound to the missing
sentinel disappears while its neighbours keep order and tags, and an
unbound dots argument is the incorrect-context error. -/
theorem dots_empty_binding_removes_argument_witness :
    ArgList.evaluate envEmptyDots .Keep
        ⟨[⟨some 1, .obj 5⟩, ⟨none, .dots⟩, ⟨some 2, .sym 4⟩], .RAW⟩
      = .ok ⟨[⟨some 1, .obj 5⟩, ⟨some 2, .sym 4⟩], .EVALUATED⟩
    ∧ ArgList.evaluate envNoDotsBinding .Keep
        ⟨[⟨some 1, .obj 5⟩, ⟨none, .dots⟩], .RAW⟩
      = .error .dotsUsedInIncorrectContext :=
  ⟨((dots_empty_binding_removes_argument envEmptyDots
      [⟨some 1, .obj 5⟩, ⟨none, .dots⟩, ⟨some 2, .sym 4⟩]).1
        (Or.inr rfl)).trans (by decide),
   (dots_empty_binding_removes_argument envNoDotsBinding
      [⟨some 1, .obj 5⟩, ⟨none, .dots⟩]).2 (Or.inl rfl) (by decide)⟩

/-- Rebuilding call arguments against enough evaluated values pairs them
positionally: the call arguments numbered from n are zipped with the
evaluated values from position n minus one on. -/
theorem transformEach_wrapEval_ok (values : List Argument) :
    ∀ (cs : List Argument) (n : Nat), 1 ≤ n →
      n - 1 + cs.length ≤ values.length →
      transformEach (wrapEvalFun values) cs n
        = .ok (cs.zipWith
            (fun c v => c.setValue (.forcedPromise c.value v.value))
            (values.drop (n - 1))) := by
  intro cs
  induction cs with
  | nil => intro n h1 h2; simp [transformEach]
  | cons c rest ih =>
    intro n h1 h2
    have h2b : n - 1 + (rest.length + 1) ≤ values.length := by
      simpa using h2
    have hlt : n - 1 < values.length := by omega
    have hng : ¬ (n - 1 > values.length) := by omega
    have hget : values.get? (n - 1) = some (values.get ⟨n - 1, hlt⟩) :=
      List.get?_eq_get hlt
    have hdrop : values.drop (n - 1) = values.get ⟨n - 1, hlt⟩ :: values.drop n := by
      have := List.drop_eq_getElem_cons hlt
      simpa [List.get_eq_getElem, (by omega : n - 1 + 1 = n)] using this
    have hrec := ih (n + 1) (by omega) (by simp; omega)
    simp only [transformEach, wrapEvalFun, hng, if_neg, hget, if_false]
    simp [hng, hget, hrec, hdrop, (by omega : n + 1 - 1 = n)]

/-- Rebuilding call arguments against too few evaluated values reaches the
element indexed one past the end of the value vector and stops with the
out-of-bounds access; the dispatch-error test, which needs the index to
exceed the length strictly, never fires before it. -/
theorem transformEach_wrapEval_oob (values : List Argument) :
    ∀ (cs : List Argument) (n : Nat), 1 ≤ n →
      n - 1 ≤ values.length → values.length < n - 1 + cs.length →
      transformEach (wrapEvalFun values) cs n = .error .outOfBoundsIndex := by
  intro cs
  induction cs with
  | nil =>
    intro n h1 h2 h3
    simp at h3
    omega
  | cons c rest ih =>
    intro n h1 h2 h3
    have h3b : values.length < n - 1 + (rest.length + 1) := by
      simpa using h3
    have hng : ¬ (n - 1 > values.length) := by omega
    by_cases he : n - 1 = values.length
    · have hget : values.get? (n - 1) = none := by
        rw [List.get?_eq_none]
        omega
      have hget2 : values[n - 1]? = none := by
        rw [← List.get?_eq_getElem?]
        exact hget
      simp [transformEach, wrapEvalFun, hng, hget2]
    · have hlt : n - 1 < values.length := by omega
      have hget : values.get? (n - 1) = some (values.get ⟨n - 1, hlt⟩) :=
        List.get?_eq_get hlt
      have hget2 : values[n - 1]? = some (values.get ⟨n - 1, hlt⟩) := by
        rw [← List.get?_eq_getElem?]
        exact hget
      have hrec := ih (n + 1) (by omega) (by omega) (by omega)
      simp [transformEach, wrapEvalFun, hng, hget2, hrec]

/-- Claim C7 counterexample: an Evaluated list of two values rebuilt against
a call of raw arity one succeeds, silently dropping the second value; the
evaluated-value count disagrees with the raw arity yet no dispatch error is
raised, contradicting the claim. -/
theorem wrapInPromises_excess_values_counterexample :
    ArgList.wrapInPromises envNoDotsBinding (some [⟨none, .sym 9⟩])
        ⟨[⟨none, .obj 1⟩, ⟨none, .obj 2⟩], .EVALUATED⟩
      = .ok ⟨[⟨none, .forcedPromise (.sym 9) (.obj 1)⟩], .PROMISED⟩ := by
  decide

/-- Claim C7 (amended): wrapInPromises on an Evaluated list pairs each raw
call argument positionally with an already-evaluated value, producing a
PromiseWrapped list of pre-forced promises; when the raw arity is at most
the evaluated-value count it succeeds, silently ignoring any excess
values, and when the raw arity exceeds the count the element one past the
end of the value vector is accessed out of bounds (undefined behavior)
before the off-by-one dispatch-error test can ever fire, so the fatal
dispatch error is not raised in either direction of disagreement. -/
theorem wrapInPromises_evaluated_amended (env : Env)
    (values callArgs : List Argument)
    (hnd : ∀ a ∈ callArgs, a.value ≠ .dots) :
    (callArgs.length ≤ values.length →
      ArgList.wrapInPromises env (some callArgs) ⟨values, .EVALUATED⟩
        = .ok ⟨callArgs.zipWith
            (fun c v => c.setValue (.forcedPromise c.value v.value)) values,
            .PROMISED⟩)
    ∧ (values.length < callArgs.length →
      ArgList.wrapInPromises env (some callArgs) ⟨values, .EVALUATED⟩
        = .error .outOfBoundsIndex) := by
  have h3 : has3Dots callArgs = false := by
    simp [has3Dots]
    intro a ha
    exact hnd a ha
  constructor
  · intro hle
    have hok := transformEach_wrapEval_ok values callArgs 1 (le_refl 1)
      (by simpa using hle)
    unfold ArgList.wrapInPromises ArgList.transform
    simp [h3, hok]
  · intro hgt
    have hoob := transformEach_wrapEval_oob values callArgs 1 (le_refl 1)
      (by omega) (by simpa using hgt)
    unfold ArgList.wrapInPromises ArgList.transform
    simp [h3, hoob]

/-- Witness for the amended claim C7: two call arguments paired with two
values succeed with pre-forced promises; two call arguments against one
value hit the out-of-bounds access. -/
theorem wrapInPromises_evaluated_amended_witness :
    ArgList.wrapInPromises envNoDotsBinding
        (some [⟨some 1, .sym 8⟩, ⟨none, .sym 9⟩])
        ⟨[⟨some 1, .obj 3⟩, ⟨none, .obj 4⟩], .EVALUATED⟩
      = .ok ⟨[⟨some 1, .forcedPromise (.sym 8) (.obj 3)⟩,
              ⟨none, .forcedPromise (.sym 9) (.obj 4)⟩], .PROMISED⟩
    ∧ ArgList.wrapInPromises envNoDotsBinding
        (some [⟨none, .sym 8⟩, ⟨none, .sym 9⟩])
        ⟨[⟨none, .obj 3⟩], .EVALUATED⟩
      = .error .outOfBoundsIndex :=
  ⟨((wrapInPromises_evaluated_amended envNoDotsBinding
      [⟨some 1, .obj 3⟩, ⟨none, .obj 4⟩]
      [⟨some 1, .sym 8⟩, ⟨none, .sym 9⟩] (by decide)).1 (by decide)).trans
        (by decide),
   (wrapInPromises_evaluated_amended envNoDotsBinding
      [⟨none, .obj 3⟩]
      [⟨none, .sym 8⟩, ⟨none, .sym 9⟩] (by decide)).2 (by decide)⟩

/-- A failed search for a tag means no extra argument carries it. -/
theorem removeFirstMatch_none {t : Nat} :
    ∀ {xs : List (Option Nat × RObj)}, removeFirstMatch t xs = none →
      ∀ x ∈ xs, x.1 ≠ some t := by
  intro xs
  induction xs with
  | nil => intro _ x hx; simp at hx
  | cons y rest ih =>
    intro h x hx
    by_cases hy : y.1 = some t
    · simp [removeFirstMatch, hy] at h
    · rcases List.mem_cons.mp hx with rfl | hx2
      · exact hy
      · refine ih ?_ x hx2
        cases hr : removeFirstMatch t rest with
        | none => rfl
        | some p =>
          obtain ⟨v, r2⟩ := p
          rw [removeFirstMatch, if_neg hy, hr] at h
          simp at h

/-- A successful search for a tag splits the extras around the first
element carrying it. -/
theorem removeFirstMatch_some {t : Nat} :
    ∀ {xs : List (Option Nat × RObj)} {v : RObj}
      {xs2 : List (Option Nat × RObj)},
      removeFirstMatch t xs = some (v, xs2) →
      ∃ l1 l2, xs = l1 ++ (some t, v) :: l2 ∧ xs2 = l1 ++ l2
        ∧ ∀ x ∈ l1, x.1 ≠ some t := by
  intro xs
  induction xs with
  | nil => intro v xs2 h; simp [removeFirstMatch] at h
  | cons y rest ih =>
    intro v xs2 h
    by_cases hy : y.1 = some t
    · rw [removeFirstMatch, if_pos hy] at h
      simp only [Option.some.injEq, Prod.mk.injEq] at h
      obtain ⟨hv, hrest⟩ := h
      refine ⟨[], rest, ?_, by simp [hrest], by simp⟩
      have hyy : y = (some t, v) := Prod.ext hy hv
      simp [hyy]
    · cases hr : removeFirstMatch t rest with
      | none => rw [removeFirstMatch, if_neg hy, hr] at h; simp at h
      | some p =>
        obtain ⟨v2, r2⟩ := p
        rw [removeFirstMatch, if_neg hy, hr] at h
        simp only [Option.some.injEq, Prod.mk.injEq] at h
        obtain ⟨hv, hxs2⟩ := h
        subst hv
        obtain ⟨l1, l2, hxs, hr2, hl1⟩ := ih hr
        refine ⟨y :: l1, l2, by simp [hxs], by simp [← hxs2, hr2], ?_⟩
        intro x hx
        rcases List.mem_cons.mp hx with rfl | hx2
        · exact hy
        · exact hl1 x hx2

/-- Nothing is overridden by an empty argument list. -/
theorem tagMatchedBy_nil (x : Option Nat × RObj) : tagMatchedBy [] x = false := by
  rcases x with ⟨t, v⟩
  cases t <;> rfl

/-- An argument whose tag cannot equal the tag of the extra does not change
whether that extra overrides something. -/
theorem tagMatchedBy_cons_skip (a : Argument) (rest : List Argument)
    (x : Option Nat × RObj) (h : a.tag ≠ x.1 ∨ x.1 = none) :
    tagMatchedBy (a :: rest) x = tagMatchedBy rest x := by
  rcases x with ⟨t, v⟩
  cases t with
  | none => rfl
  | some u =>
    have hne : a.tag ≠ some u := by
      rcases h with h | h
      · exact h
      · exact absurd h (by simp)
    simp [tagMatchedBy, hne]

/-- Searching a concatenation whose first part has no match searches the
second part. -/
theorem find?_append_of_none {α : Type} (p : α → Bool)
    (l1 l2 : List α) (h : ∀ x ∈ l1, ¬ p x = true) :
    (l1 ++ l2).find? p = l2.find? p := by
  rw [List.find?_append, List.find?_eq_none.mpr h]
  rfl

/-- Removing the unique element carrying one tag does not change the value
found for a different tag. -/
theorem findExtraValue_erase_middle {u t : Nat} (hut : u ≠ t)
    (l1 l2 : List (Option Nat × RObj)) (v : RObj) :
    findExtraValue (some u) (l1 ++ (some t, v) :: l2)
      = findExtraValue (some u) (l1 ++ l2) := by
  have hut2 : t ≠ u := fun h => hut h.symm
  simp [findExtraValue, List.find?_append, List.find?_cons, hut2]

/-- Unfolding overrideArgs at an untagged first argument. -/
theorem overrideArgs_cons_none (a : Argument) (rest : List Argument)
    (xs : List (Option Nat × RObj)) (ha : a.tag = none) :
    overrideArgs (a :: rest) xs
      = (a :: (overrideArgs rest xs).1, (overrideArgs rest xs).2) := by
  rw [overrideArgs, ha]

/-- Unfolding overrideArgs at a tagged first argument no extra matches. -/
theorem overrideArgs_cons_unmatched (a : Argument) (rest : List Argument)
    (xs : List (Option Nat × RObj)) (t : Nat) (ha : a.tag = some t)
    (hr : removeFirstMatch t xs = none) :
    overrideArgs (a :: rest) xs
      = (a :: (overrideArgs rest xs).1, (overrideArgs rest xs).2) := by
  rw [overrideArgs, ha]
  show (match removeFirstMatch t xs with
    | some (v, xs2) =>
      (a.setValue v :: (overrideArgs rest xs2).1, (overrideArgs rest xs2).2)
    | none => (a :: (overrideArgs rest xs).1, (overrideArgs rest xs).2)) = _
  rw [hr]

/-- Unfolding overrideArgs at a tagged first argument some extra matches. -/
theorem overrideArgs_cons_matched (a : Argument) (rest : List Argument)
    (xs : List (Option Nat × RObj)) (t : Nat) (v : RObj)
    (xs2 : List (Option Nat × RObj)) (ha : a.tag = some t)
    (hr : removeFirstMatch t xs = some (v, xs2)) :
    overrideArgs (a :: rest) xs
      = (a.setValue v :: (overrideArgs rest xs2).1, (overrideArgs rest xs2).2) := by
  rw [overrideArgs, ha]
  show (match removeFirstMatch t xs with
    | some (v, xs2) =>
      (a.setValue v :: (overrideArgs rest xs2).1, (overrideArgs rest xs2).2)
    | none => (a :: (overrideArgs rest xs).1, (overrideArgs rest xs).2)) = _
  rw [hr]

/-- The override phase of merge, characterized: with no duplicate tags on
either side, every argument takes the value of the extra carrying its tag
when there is one, and the unconsumed extras are exactly those whose tag
matches no argument, in their original order. -/
theorem overrideArgs_spec :
    ∀ (args : List Argument) (xs : List (Option Nat × RObj)),
      (args.filterMap Argument.tag).Nodup →
      (xs.filterMap Prod.fst).Nodup →
      overrideArgs args xs
        = (args.map (fun a =>
             match findExtraValue a.tag xs with
             | some v => a.setValue v
             | none => a),
           xs.filter (fun x => ! tagMatchedBy args x)) := by
  intro args
  induction args with
  | nil =>
    intro xs _ _
    have hfil : xs.filter (fun x => ! tagMatchedBy [] x) = xs :=
      List.filter_eq_self.mpr fun x _ => by simp [tagMatchedBy_nil]
    simp [overrideArgs, hfil]
  | cons a rest ih =>
    intro xs hl he
    rcases ha : a.tag with _ | t
    · have hl2 : (rest.filterMap Argument.tag).Nodup := by
        rwa [List.filterMap_cons_none ha] at hl
      have hfe : findExtraValue a.tag xs = none := by rw [ha]; rfl
      have hfil : xs.filter (fun x => ! tagMatchedBy (a :: rest) x)
          = xs.filter (fun x => ! tagMatchedBy rest x) := by
        refine List.filter_congr fun x _ => ?_
        rcases hx1 : x.1 with _ | u
        · rw [tagMatchedBy_cons_skip a rest x (Or.inr hx1)]
        · rw [tagMatchedBy_cons_skip a rest x (Or.inl (by rw [ha, hx1]; simp))]
      rw [overrideArgs_cons_none a rest xs ha, ih xs hl2 he]
      simp only [List.map_cons, hfe, Prod.mk.injEq]
      exact ⟨by trivial, hfil.symm⟩
    · have hlc : (t :: rest.filterMap Argument.tag).Nodup := by
        rwa [List.filterMap_cons_some ha] at hl
      have hl2 : (rest.filterMap Argument.tag).Nodup :=
        (List.nodup_cons.mp hlc).2
      have htnot : t ∉ rest.filterMap Argument.tag :=
        (List.nodup_cons.mp hlc).1
      have htrest : ∀ a2 ∈ rest, a2.tag ≠ some t := fun a2 ha2 habs =>
        htnot (List.mem_filterMap.mpr ⟨a2, ha2, habs⟩)
      cases hr : removeFirstMatch t xs with
      | none =>
        have hnone := removeFirstMatch_none hr
        have hfind : xs.find? (fun x => decide (x.1 = some t)) = none :=
          List.find?_eq_none.mpr fun x hx => by simp [hnone x hx]
        have hfe : findExtraValue a.tag xs = none := by
          rw [ha]
          simp [findExtraValue, hfind]
        have hfil : xs.filter (fun x => ! tagMatchedBy (a :: rest) x)
            = xs.filter (fun x => ! tagMatchedBy rest x) := by
          refine List.filter_congr fun x hx => ?_
          rcases hx1 : x.1 with _ | u
          · rw [tagMatchedBy_cons_skip a rest x (Or.inr hx1)]
          · refine congrArg Bool.not
              (tagMatchedBy_cons_skip a rest x (Or.inl ?_))
            rw [ha, hx1]
            intro habs
            exact hnone x hx (by rw [hx1, ← habs])
        rw [overrideArgs_cons_unmatched a rest xs t ha hr, ih xs hl2 he]
        simp only [List.map_cons, hfe, Prod.mk.injEq]
        exact ⟨by trivial, hfil.symm⟩
      | some p =>
        obtain ⟨v, xs2⟩ := p
        obtain ⟨l1, l2, hxs, hxs2, hl1⟩ := removeFirstMatch_some hr
        rw [hxs, List.filterMap_append,
          List.filterMap_cons_some (rfl : Prod.fst ((some t, v)) = some t)] at he
        have hsub : List.Sublist
            (l1.filterMap Prod.fst ++ l2.filterMap Prod.fst)
            (l1.filterMap Prod.fst ++ t :: l2.filterMap Prod.fst) :=
          (List.sublist_cons_self t (l2.filterMap Prod.fst)).append_left
            (l1.filterMap Prod.fst)
        have he2 : (xs2.filterMap Prod.fst).Nodup := by
          rw [hxs2, List.filterMap_append]
          exact List.Nodup.sublist hsub he
        have htB : t ∉ l2.filterMap Prod.fst := by
          have hcons : (t :: l2.filterMap Prod.fst).Nodup :=
            List.Nodup.of_append_right he
          exact (List.nodup_cons.mp hcons).1
        have hl2tags : ∀ x ∈ l2, x.1 ≠ some t := fun x hx habs =>
          htB (List.mem_filterMap.mpr ⟨x, hx, habs⟩)
        have hfe : findExtraValue a.tag xs = some v := by
          rw [ha, hxs]
          simp only [findExtraValue]
          rw [find?_append_of_none _ l1 _ (fun x hx => by simp [hl1 x hx])]
          simp [List.find?_cons]
        have hmapeq : rest.map (fun a2 =>
              match findExtraValue a2.tag xs2 with
              | some w => a2.setValue w
              | none => a2)
            = rest.map (fun a2 =>
              match findExtraValue a2.tag xs with
              | some w => a2.setValue w
              | none => a2) := by
          refine List.map_congr_left fun a2 ha2 => ?_
          rcases ha2t : a2.tag with _ | u
          · rfl
          · have hut : u ≠ t := fun habs =>
              htrest a2 ha2 (by rw [ha2t, habs])
            rw [hxs, hxs2, findExtraValue_erase_middle hut]
        have hfl1 : l1.filter (fun x => ! tagMatchedBy (a :: rest) x)
            = l1.filter (fun x => ! tagMatchedBy rest x) := by
          refine List.filter_congr fun x hx => ?_
          rcases hx1 : x.1 with _ | u
          · rw [tagMatchedBy_cons_skip a rest x (Or.inr hx1)]
          · refine congrArg Bool.not
              (tagMatchedBy_cons_skip a rest x (Or.inl ?_))
            rw [ha, hx1]
            intro habs
            exact hl1 x hx (by rw [hx1, ← habs])
        have hfl2 : l2.filter (fun x => ! tagMatchedBy (a :: rest) x)
            = l2.filter (fun x => ! tagMatchedBy rest x) := by
          refine List.filter_congr fun x hx => ?_
          rcases hx1 : x.1 with _ | u
          · rw [tagMatchedBy_cons_skip a rest x (Or.inr hx1)]
          · refine congrArg Bool.not
              (tagMatchedBy_cons_skip a rest x (Or.inl ?_))
            rw [ha, hx1]
            intro habs
            exact hl2tags x hx (by rw [hx1, ← habs])
        have hmid : (! tagMatchedBy (a :: rest) ((some t, v))) = false := by
          simp [tagMatchedBy, List.any_cons, ha]
        rw [overrideArgs_cons_matched a rest xs t v xs2 ha hr, ih xs2 hl2 he2]
        simp only [List.map_cons, hfe, Prod.mk.injEq]
        refine ⟨by rw [hmapeq], ?_⟩
        rw [hxs, hxs2, List.filter_append, List.filter_append,
          List.filter_cons]
        simp only [hmid, Bool.false_eq_true, if_false]
        rw [hfl1, hfl2]

/-- Claim C3: merging extras into a PromiseWrapped list whose tags are
pairwise distinct (and whose extras carry pairwise distinct tags)
overwrites, in place, the value of every argument whose tag an extra
carries, and appends the unmatched extras at the end of the list in their
original order. -/
theorem merge_overrides_and_appends (l : ArgList)
    (extras : List (Option Nat × RObj))
    (hst : l.status = .PROMISED)
    (hl : (l.args.filterMap Argument.tag).Nodup)
    (he : (extras.filterMap Prod.fst).Nodup) :
    l.merge extras = .ok ⟨
      (l.args.map fun a =>
        match findExtraValue a.tag extras with
        | some v => a.setValue v
        | none => a)
      ++ ((extras.filter fun x => ! tagMatchedBy l.args x).map
            fun x => ⟨x.1, x.2⟩),
      .PROMISED⟩ := by
  unfold ArgList.merge
  rw [overrideArgs_spec l.args extras hl he]
  simp [hst]

/-- Witness for claim C3, the example from the specification: merging
extras b equals 20 and c equals 3 into the list a equals 1, b equals 2
yields a equals 1, b equals 20, c equals 3 (b overwritten in place, c
appended at the end). -/
theorem merge_overrides_and_appends_witness :
    ArgList.merge [(some 2, .obj 20), (some 3, .obj 3)]
        ⟨[⟨some 1, .obj 1⟩, ⟨some 2, .obj 2⟩], .PROMISED⟩
      = .ok ⟨[⟨some 1, .obj 1⟩, ⟨some 2, .obj 20⟩, ⟨some 3, .obj 3⟩],
             .PROMISED⟩ :=
  (merge_overrides_and_appends
      ⟨[⟨some 1, .obj 1⟩, ⟨some 2, .obj 2⟩], .PROMISED⟩
      [(some 2, .obj 20), (some 3, .obj 3)]
      rfl (by decide) (by decide)).trans (by decide)

end Rho
